import Mathlib

/-!
Shallow embedding of the release-branch-generator step (Go sources `main.go` /
`gitutils.go`, current revision).  File contents are modelled as `List Char`;
Go's `int` is modelled as `Int` with the 64-bit bounds made explicit inside
the embedded `strconv.Atoi`; fallible operations return `Except`/`Option`.
The go-git primitives (`repo.CreateTag`, `repo.Push`) are external
collaborators and enter the model as an environment of outcome functions;
everything the Go code does with those outcomes (error wrapping, sentinel
comparison, control flow) is embedded faithfully.
-/

deriving instance DecidableEq for Except

/-- Characters of a Lean string literal, the representation of file contents. -/
def strL (s : String) : List Char := s.data

/-- Decimal digit character for a value below ten (used by the embedded
`strconv.Itoa`). -/
def decChar (d : Nat) : Char :=
  match d with
  | 0 => '0' | 1 => '1' | 2 => '2' | 3 => '3' | 4 => '4'
  | 5 => '5' | 6 => '6' | 7 => '7' | 8 => '8' | 9 => '9'
  | _ => '0'

/-- Fuelled core of decimal printing: emits the digits of `n` in front of
`acc`, least significant digit pushed first. -/
def decAux : Nat → Nat → List Char → List Char
  | 0, _, acc => acc
  | fuel + 1, n, acc =>
    if n < 10 then decChar n :: acc
    else decAux fuel (n / 10) (decChar (n % 10) :: acc)

/-- Embedded `strconv.Itoa` for natural numbers: canonical decimal digits. -/
def itoaGo (n : Nat) : List Char := decAux (n + 1) n []

/-- Embedded `strconv.Itoa` on Go `int` values. -/
def intItoa (i : Int) : List Char :=
  if i < 0 then '-' :: itoaGo (-i).toNat else itoaGo i.toNat

/-- Value of a digit string, most significant digit first. -/
def natOfDigits (ds : List Char) : Nat :=
  ds.foldl (fun a c => 10 * a + (c.toNat - 48)) 0

/-- Result of the embedded `strconv.Atoi`: the returned `int` together with
whether the returned error was `nil` (Go returns a clamped value on range
errors and `0` on syntax errors, and the callers here sometimes use that
value even when the error is non-nil). -/
structure AtoiResult where
  val : Int
  ok : Bool
deriving DecidableEq, Repr

/-- Sign-stripped core of the embedded `strconv.Atoi` (64-bit `int`). -/
def atoiCore (neg : Bool) (ds : List Char) : AtoiResult :=
  if ds.isEmpty then ⟨0, false⟩
  else if ds.all Char.isDigit then
    let n := natOfDigits ds
    if neg then
      if n ≤ 2 ^ 63 then ⟨-(n : Int), true⟩ else ⟨-(2 ^ 63 : Int), false⟩
    else
      if n ≤ 2 ^ 63 - 1 then ⟨(n : Int), true⟩ else ⟨((2 ^ 63 - 1 : Nat) : Int), false⟩
  else ⟨0, false⟩

/-- Embedded `strconv.Atoi`. -/
def atoiGo (cs : List Char) : AtoiResult :=
  match cs with
  | [] => ⟨0, false⟩
  | c :: r =>
    if c = '-' then atoiCore true r
    else if c = '+' then atoiCore false r
    else atoiCore false (c :: r)

/-- One trailing carriage return is stripped from a scanned line, as
`bufio.ScanLines` does. -/
def dropCR (l : List Char) : List Char :=
  if l.getLast? = some '\r' then l.dropLast else l

/-- Accumulator-passing core of the embedded `bufio.Scanner` line splitting;
`acc` holds the current line's characters in reverse. -/
def splitLinesAux (acc : List Char) : List Char → List (List Char)
  | [] => [dropCR acc.reverse]
  | c :: rest =>
    if c = '\n' then
      dropCR acc.reverse :: (if rest.isEmpty then [] else splitLinesAux [] rest)
    else
      splitLinesAux (c :: acc) rest

/-- Embedded `bufio.Scanner` over a whole file: the sequence of scanned
lines (separators removed, no trailing empty token, empty file scans to
nothing). -/
def splitLinesGo (cs : List Char) : List (List Char) :=
  if cs.isEmpty then [] else splitLinesAux [] cs

/-- The write-back loop shared by both mutators: every line followed by a
single newline byte. -/
def writeAllLines (ls : List (List Char)) : List Char :=
  ls.foldr (fun l acc => l ++ '\n' :: acc) []

/-- Effect of `file.Seek(0, 0)` followed by writing `new` without a
`Truncate`: bytes of the old content beyond the written length survive. -/
def overwriteNoTrunc (old new : List Char) : List Char :=
  new ++ old.drop new.length

/-- Leftmost maximal run of ASCII digits in a line — the embedded
`regexp.MustCompile("\\d+").FindString`; `[]` when there is no digit
(Go returns the empty string then). -/
def firstDigitRun (cs : List Char) : List Char :=
  match cs with
  | [] => []
  | c :: rest => if c.isDigit then c :: rest.takeWhile Char.isDigit else firstDigitRun rest

/-- Embedded `strings.Replace(s, pat, rep, 1)`. -/
def replaceFirst (s pat rep : List Char) : List Char :=
  match s with
  | [] => if pat.isEmpty then rep else []
  | c :: rest =>
    if pat.isPrefixOf s then rep ++ s.drop pat.length
    else c :: replaceFirst rest pat rep

/-- Embedded `strings.HasPrefix(line, "#")`. -/
def startsWithHash (l : List Char) : Bool :=
  match l with
  | '#' :: _ => true
  | _ => false

/-- White-space test of Go's `unicode.IsSpace` (the `White_Space` property). -/
def isSpaceGo (c : Char) : Bool :=
  c == ' ' || c == '\t' || c == '\n' || c == '\x0b' || c == '\x0c' || c == '\r' ||
  c == '\x85' || c == '\xa0' || c == ' ' ||
  (decide (' ' ≤ c) && decide (c ≤ ' ')) ||
  c == ' ' || c == ' ' || c == ' ' || c == ' ' || c == '　'

/-- Embedded `strings.TrimSpace`. -/
def trimGo (cs : List Char) : List Char :=
  ((cs.dropWhile isSpaceGo).reverse.dropWhile isSpaceGo).reverse

/-! ## Version Code Mutator (`updateBuildNo`) -/

/-- Failure modes of `updateBuildNo`: the `panic("Unable to parse
versionCode")` on a failed `Atoi` of the regex line's digit run, and the
`fail("failed")` when no line matched the configured pattern. -/
inductive BuildNoErr
  | panicParse
  | failNoMatch
deriving DecidableEq, Repr

/-- Body of `updateBuildNo`'s scan loop for one line.  `matcher` is the
compiled `version_code_regex`'s `MatchString`, `render` is the execution of
the parsed `version_code_template` on the current code.  Note that the error
of the `Atoi` on the rendered output is discarded (`verCodeNew, _ :=`): its
value is used regardless. -/
def processVCLine (matcher : List Char → Bool) (render : Int → List Char)
    (line : List Char) : Except BuildNoErr (List Char) :=
  if matcher line then
    let mtch := firstDigitRun line
    let r := atoiGo mtch
    if r.ok then
      .ok (replaceFirst line mtch (intItoa (atoiGo (render r.val)).val))
    else .error .panicParse
  else .ok line

/-- The scan loop of `updateBuildNo`: processed lines plus the `replaced`
flag. -/
def updateBuildNoLines (matcher : List Char → Bool) (render : Int → List Char) :
    List (List Char) → Except BuildNoErr (List (List Char) × Bool)
  | [] => .ok ([], false)
  | l :: ls =>
    match processVCLine matcher render l with
    | .error e => .error e
    | .ok l' =>
      match updateBuildNoLines matcher render ls with
      | .error e => .error e
      | .ok (ls', rep) => .ok (l' :: ls', matcher l || rep)

/-- Whole-file behaviour of `updateBuildNo`: scan, check `replaced`, then
`Seek(0)` and write every line newline-terminated — without truncating the
file first. -/
def updateBuildNoFile (matcher : List Char → Bool) (render : Int → List Char)
    (content : List Char) : Except BuildNoErr (List Char) :=
  match updateBuildNoLines matcher render (splitLinesGo content) with
  | .error e => .error e
  | .ok (ls, replaced) =>
    if replaced then .ok (overwriteNoTrunc content (writeAllLines ls))
    else .error .failNoMatch

/-- Final on-disk content after `updateBuildNo`: both failure paths
(`panic`, `fail`) terminate before anything is written back. -/
def updateBuildNoFinalContent (matcher : List Char → Bool) (render : Int → List Char)
    (content : List Char) : List Char :=
  match updateBuildNoFile matcher render content with
  | .ok c => c
  | .error _ => content

/-! ## Tag File Semver Mutator (`updateTagFile`) -/

/-- The `Semver` struct of `updateTagFile` (fields Major, Minor, Rev). -/
structure Semver where
  major : Int
  minor : Int
  rev : Int
deriving DecidableEq, Repr

/-- Failure modes of `updateTagFile`: the `fail` on a non-nil (Rev) parse
error and the `fail` when no line was replaced. -/
inductive TagFileErr
  | formatFail
  | noMatchFail
deriving DecidableEq, Repr

/-- Maximal-munch attempt of the pattern `\d+\.\d+\.\d+` anchored at the head
of `cs`, returning the three capture groups.  Greedy `\d+` with a following
literal `.` cannot backtrack to a shorter run (the run's successor character
would be a digit), so maximal munch is exact for this pattern. -/
def semverAt (cs : List Char) : Option (List Char × List Char × List Char) :=
  let r1 := cs.takeWhile Char.isDigit
  if r1.isEmpty then none
  else
    match cs.dropWhile Char.isDigit with
    | '.' :: rest2 =>
      let r2 := rest2.takeWhile Char.isDigit
      if r2.isEmpty then none
      else
        match rest2.dropWhile Char.isDigit with
        | '.' :: rest4 =>
          let r3 := rest4.takeWhile Char.isDigit
          if r3.isEmpty then none else some (r1, r2, r3)
        | _ => none
    | _ => none

/-- Leftmost match of the tag-file pattern
`(?P<Major>\d+)\.(?P<Minor>\d+)\.(?P<Rev>\d+)` — the embedded
`FindStringSubmatch`, as the named capture groups. -/
def findSemver : List Char → Option (List Char × List Char × List Char)
  | [] => none
  | c :: rest =>
    match semverAt (c :: rest) with
    | some g => some g
    | none => findSemver rest

/-- The `paramsMap` of `updateTagFile`: capture groups of the leftmost
semver match, or empty strings when the pattern does not match (the map
stays empty, so every lookup yields `""`). -/
def semverGroupsOf (line : List Char) : List Char × List Char × List Char :=
  match findSemver line with
  | some g => g
  | none => ([], [], [])

/-- The `Semver` value `updateTagFile` constructs: each field is whatever
the corresponding `strconv.Atoi` returned, errors notwithstanding. -/
def parsedSemver (line : List Char) : Semver :=
  ⟨(atoiGo (semverGroupsOf line).1).val,
   (atoiGo (semverGroupsOf line).2.1).val,
   (atoiGo (semverGroupsOf line).2.2).val⟩

/-- Whether the `Atoi` of the Rev group succeeded — the only parse error
`updateTagFile` ever checks, since `err` is reassigned by each of the three
parses and inspected once afterwards. -/
def revParses (line : List Char) : Bool :=
  (atoiGo (semverGroupsOf line).2.2).ok

/-- The qualifying-line test of `updateTagFile`:
`len(line) > 0 && !strings.HasPrefix(line, "#")`. -/
def qualifiesTagLine (l : List Char) : Bool :=
  decide (l.length > 0) && !startsWithHash l

/-- Body of `updateTagFile`'s scan loop for one line: every qualifying line
is run through the semver extraction and replaced whole by the rendered
`tag_file_template`; `render` is the template's execution on the `Semver`
value.  Returns the new line and whether `replaced` was set. -/
def processTagLine (render : Semver → List Char) (line : List Char) :
    Except TagFileErr (List Char × Bool) :=
  if qualifiesTagLine line then
    if revParses line then .ok (render (parsedSemver line), true)
    else .error .formatFail
  else .ok (line, false)

/-- The scan loop of `updateTagFile`. -/
def updateTagFileLines (render : Semver → List Char) :
    List (List Char) → Except TagFileErr (List (List Char) × Bool)
  | [] => .ok ([], false)
  | l :: ls =>
    match processTagLine render l with
    | .error e => .error e
    | .ok (l', rep1) =>
      match updateTagFileLines render ls with
      | .error e => .error e
      | .ok (ls', rep) => .ok (l' :: ls', rep1 || rep)

/-- Whole-file behaviour of `updateTagFile`: scan, check `replaced`, then
`Truncate(0)`, `Seek(0)` and write every line newline-terminated (unlike
`updateBuildNo`, this function does truncate). -/
def updateTagFileFile (render : Semver → List Char) (content : List Char) :
    Except TagFileErr (List Char) :=
  match updateTagFileLines render (splitLinesGo content) with
  | .error e => .error e
  | .ok (ls, replaced) =>
    if replaced then .ok (writeAllLines ls) else .error .noMatchFail

/-- Final on-disk content after `updateTagFile`: both `fail` paths occur
before the truncate/write, leaving the file as it was. -/
def updateTagFileFinalContent (render : Semver → List Char) (content : List Char) :
    List Char :=
  match updateTagFileFile render content with
  | .ok c => c
  | .error _ => content

/-! ## Git layer and Tag Processor (`gitutils.go`, `processTagFile`) -/

/-- Go `error` values as compared by the step's code: the two go-git
sentinels it tests against with `==`, and fresh `errors.New` values (never
identical to a sentinel). -/
inductive GoErr
  | errTagExists
  | noErrAlreadyUpToDate
  | newErr (msg : List Char)
deriving DecidableEq, Repr

/-- Message text of an error, as `fmt.Sprintf("%v", err)` would render it. -/
def goErrMsg : GoErr → List Char
  | .errTagExists => strL "tag already exists"
  | .noErrAlreadyUpToDate => strL "already up-to-date"
  | .newErr m => m

/-- Outcomes of the external go-git primitives for one run: what
`repo.CreateTag` and `repo.Push` (tag refspec / branch refspec) return for a
given name.  `none` is a nil error. -/
structure GitEnv where
  createTag : List Char → Option GoErr
  pushTagRes : List Char → Option GoErr
  pushBranchRes : List Char → Option GoErr

/-- Embedded `gitTag`: any `CreateTag` error is wrapped via
`errors.New(fmt.Sprintf("error creating tag: %v\n", err))`, producing a new
error value — never the `git.ErrTagExists` sentinel itself. -/
def gitTag (env : GitEnv) (tagName : List Char) : Option GoErr :=
  match env.createTag tagName with
  | none => none
  | some e => some (.newErr (strL "error creating tag: " ++ goErrMsg e ++ strL "\n"))

/-- Embedded `gitPushTag`: a push result of `git.NoErrAlreadyUpToDate` is
converted to success, any other error is returned as-is. -/
def gitPushTag (env : GitEnv) (tagName : List Char) : Option GoErr :=
  match env.pushTagRes tagName with
  | none => none
  | some e => if e = .noErrAlreadyUpToDate then none else some e

/-- Embedded `gitPushBranch`: `git.NoErrAlreadyUpToDate` is success, any
other error is wrapped as "unable to push branch: ...". -/
def gitPushBranch (env : GitEnv) (branchName : List Char) : Option GoErr :=
  match env.pushBranchRes branchName with
  | none => none
  | some e =>
    if e = .noErrAlreadyUpToDate then none
    else some (.newErr (strL "unable to push branch: " ++ goErrMsg e ++ strL "\n"))

/-- The tag-collection loop of `processTagFile`: each scanned line is
`strings.TrimSpace`d, then kept when it does not start with `#` and is not
empty. -/
def tagsLoop : List (List Char) → List (List Char)
  | [] => []
  | raw :: rest =>
    let line := trimGo raw
    if !startsWithHash line && decide (line ≠ []) then line :: tagsLoop rest
    else tagsLoop rest

/-- Pending tag base-names read from the tag file by `processTagFile`. -/
def tagsFromContent (content : List Char) : List (List Char) :=
  tagsLoop (splitLinesGo content)

/-- The local tag-creation loop of `processTagFile`: each base name gets the
configured suffix appended and is created via `gitTag`; an error equal (by
`==`) to `git.ErrTagExists` is only logged, any other error aborts.  The
*base* name — not the suffixed one — is appended to `tagsToPush` on every
non-aborting iteration. -/
def tagCreateLoop (env : GitEnv) (suffix : List Char) :
    List (List Char) → Except GoErr (List (List Char))
  | [] => .ok []
  | tag :: rest =>
    let newTagName := tag ++ suffix
    match gitTag env newTagName with
    | none =>
      match tagCreateLoop env suffix rest with
      | .ok l => .ok (tag :: l)
      | .error e => .error e
    | some e =>
      if e = .errTagExists then
        match tagCreateLoop env suffix rest with
        | .ok l => .ok (tag :: l)
        | .error e2 => .error e2
      else .error e

/-- The push loop of `processTagFile`: pushes every collected name in order,
aborting on the first `gitPushTag` error; returns the names pushed. -/
def tagPushLoop (env : GitEnv) : List (List Char) → Except GoErr (List (List Char))
  | [] => .ok []
  | t :: rest =>
    match gitPushTag env t with
    | none =>
      match tagPushLoop env rest with
      | .ok l => .ok (t :: l)
      | .error e => .error e
    | some e => .error e

/-- Embedded `processTagFile`: read base names from the tag file, succeed
immediately when there are none, otherwise create local tags then push.
The successful result is the list of tag names pushed to the remote, in
order. -/
def processTagFile (env : GitEnv) (suffix : List Char) (content : List Char) :
    Except GoErr (List (List Char)) :=
  let tags := tagsFromContent content
  if tags.isEmpty then .ok []
  else
    match tagCreateLoop env suffix tags with
    | .error e => .error e
    | .ok tagsToPush => tagPushLoop env tagsToPush

/-! ## Concrete instances used by the claims' examples -/

/-- Matcher of the configured pattern `^versionCode ` (the spec's example
regex `versionCode \d+` restricted to its anchored form): `MatchString` on a
line holding a `versionCode` entry. -/
def matcherVC (l : List Char) : Bool := (strL "versionCode").isPrefixOf l

/-- Execution of the version-code template `{{add . 1}}`: render the
incremented code in decimal. -/
def renderAdd1 (v : Int) : List Char := intItoa (v + 1)

/-- Execution of a tag-file template `{{.Major}}.{{.Minor}}.{{add .Rev 1}}`:
patch-level bump, the shape the step's configuration uses. -/
def renderSemBump (s : Semver) : List Char :=
  intItoa s.major ++ strL "." ++ intItoa s.minor ++ strL "." ++ intItoa (s.rev + 1)

/-! ## Arithmetic facts about the embedded Itoa/Atoi -/

theorem decAux_append (f : Nat) : ∀ n acc, decAux f n acc = decAux f n [] ++ acc := by
  induction f with
  | zero => intro n acc; simp [decAux]
  | succ f ih =>
    intro n acc
    by_cases h : n < 10
    · simp [decAux, h]
    · simp only [decAux, if_neg h]
      rw [ih (n / 10) (decChar (n % 10) :: acc), ih (n / 10) [decChar (n % 10)]]
      simp

theorem decChar_isDigit {d : Nat} (h : d < 10) : (decChar d).isDigit = true := by
  interval_cases d <;> decide

theorem decChar_toNat {d : Nat} (h : d < 10) : (decChar d).toNat - 48 = d := by
  interval_cases d <;> decide

theorem natOfDigits_append_single (xs : List Char) (c : Char) :
    natOfDigits (xs ++ [c]) = 10 * natOfDigits xs + (c.toNat - 48) := by
  simp [natOfDigits, List.foldl_append]

theorem decAux_spec (f : Nat) : ∀ n, 0 < f → n < 10 ^ f →
    decAux f n [] ≠ [] ∧
    (∀ c ∈ decAux f n [], c.isDigit = true) ∧
    natOfDigits (decAux f n []) = n ∧
    n < 10 ^ (decAux f n []).length ∧
    (n = 0 ∨ 10 ^ ((decAux f n []).length - 1) ≤ n) := by
  induction f with
  | zero => intro n h; omega
  | succ f ih =>
    intro n _ hlt
    by_cases h : n < 10
    · have hform : decAux (f + 1) n [] = [decChar n] := by simp [decAux, h]
      rw [hform]
      refine ⟨by simp, ?_, ?_, by simpa using h, by simp; omega⟩
      · intro c hc
        simp at hc
        subst hc; exact decChar_isDigit h
      · have := decChar_toNat h
        simp [natOfDigits]
        omega
    · have hf : 0 < f := by
        rcases Nat.eq_zero_or_pos f with hf0 | hf0
        · subst hf0; simp at hlt; omega
        · exact hf0
      have hdivlt : n / 10 < 10 ^ f := by
        have : n < 10 ^ f * 10 := by
          rw [← pow_succ]; exact hlt
        omega
      obtain ⟨hne, hdig, hval, hub, hlb⟩ := ih (n / 10) hf hdivlt
      have hstep : decAux (f + 1) n [] = decAux f (n / 10) [] ++ [decChar (n % 10)] := by
        simp only [decAux, if_neg h]
        exact decAux_append f (n / 10) [decChar (n % 10)]
      have hmod : n % 10 < 10 := Nat.mod_lt _ (by norm_num)
      have hlen1 : 1 ≤ (decAux f (n / 10) []).length := by
        rcases Nat.eq_zero_or_pos (decAux f (n / 10) []).length with h0 | h1
        · exact absurd (List.length_eq_zero.mp h0) hne
        · exact h1
      have hlen : (decAux (f + 1) n []).length = (decAux f (n / 10) []).length + 1 := by
        rw [hstep]; simp
      have hdm : n = 10 * (n / 10) + n % 10 := (Nat.div_add_mod n 10).symm
      refine ⟨by simp [hstep], ?_, ?_, ?_, ?_⟩
      · intro c hc
        rw [hstep] at hc
        rcases List.mem_append.mp hc with hc | hc
        · exact hdig c hc
        · simp at hc; subst hc; exact decChar_isDigit hmod
      · rw [hstep, natOfDigits_append_single, hval, decChar_toNat hmod]
        omega
      · rw [hlen]
        have hpow : 10 ^ ((decAux f (n / 10) []).length + 1)
            = 10 ^ (decAux f (n / 10) []).length * 10 := pow_succ 10 _
        omega
      · right
        rw [hlen]
        have hl : 10 ^ ((decAux f (n / 10) []).length - 1) ≤ n / 10 := by
          rcases hlb with h0 | h1
          · omega
          · exact h1
        have hpow : 10 ^ ((decAux f (n / 10) []).length - 1 + 1)
            = 10 ^ ((decAux f (n / 10) []).length - 1) * 10 := pow_succ 10 _
        have harith : (decAux f (n / 10) []).length + 1 - 1
            = (decAux f (n / 10) []).length - 1 + 1 := by omega
        rw [harith, hpow]
        omega

theorem lt_ten_pow_succ (n : Nat) : n < 10 ^ (n + 1) := by
  induction n with
  | zero => norm_num
  | succ n ih =>
    have h1 : 10 ^ (n + 1) < 10 ^ (n + 2) := by
      have : 10 ^ (n + 2) = 10 ^ (n + 1) * 10 := pow_succ 10 _
      have hp : 0 < 10 ^ (n + 1) := Nat.pos_pow_of_pos _ (by norm_num)
      omega
    omega

theorem itoaGo_spec (n : Nat) :
    itoaGo n ≠ [] ∧
    (∀ c ∈ itoaGo n, c.isDigit = true) ∧
    natOfDigits (itoaGo n) = n ∧
    n < 10 ^ (itoaGo n).length ∧
    (n = 0 ∨ 10 ^ ((itoaGo n).length - 1) ≤ n) :=
  decAux_spec (n + 1) n (Nat.succ_pos n) (lt_ten_pow_succ n)

theorem itoaGo_ne_nil (n : Nat) : itoaGo n ≠ [] := (itoaGo_spec n).1

theorem itoaGo_all_digit (n : Nat) : ∀ c ∈ itoaGo n, c.isDigit = true :=
  (itoaGo_spec n).2.1

theorem natOfDigits_itoaGo (n : Nat) : natOfDigits (itoaGo n) = n :=
  (itoaGo_spec n).2.2.1

theorem itoaGo_len_mono {m n : Nat} (h : m ≤ n) :
    (itoaGo m).length ≤ (itoaGo n).length := by
  by_contra hc
  push_neg at hc
  have hub : n < 10 ^ (itoaGo n).length := (itoaGo_spec n).2.2.2.1
  rcases (itoaGo_spec m).2.2.2.2 with h0 | hlb
  · subst h0
    have : (itoaGo 0).length = 1 := by decide
    have hn1 : 1 ≤ (itoaGo n).length :=
      Nat.one_le_iff_ne_zero.mpr (by
        intro h0
        exact itoaGo_ne_nil n (List.length_eq_zero.mp h0))
    omega
  · have hle : (itoaGo n).length ≤ (itoaGo m).length - 1 := by omega
    have hmono : 10 ^ (itoaGo n).length ≤ 10 ^ ((itoaGo m).length - 1) :=
      Nat.pow_le_pow_right (by norm_num) hle
    omega

theorem isDigit_ne_minus {c : Char} (h : c.isDigit = true) : ¬c = '-' := by
  intro e; subst e; exact absurd h (by decide)

theorem isDigit_ne_plus {c : Char} (h : c.isDigit = true) : ¬c = '+' := by
  intro e; subst e; exact absurd h (by decide)

theorem atoiGo_itoaGo {n : Nat} (h : n ≤ 2 ^ 63 - 1) :
    atoiGo (itoaGo n) = ⟨(n : Int), true⟩ := by
  obtain ⟨c, rest, hcr⟩ : ∃ c rest, itoaGo n = c :: rest := by
    cases hn : itoaGo n with
    | nil => exact absurd hn (itoaGo_ne_nil n)
    | cons c rest => exact ⟨c, rest, rfl⟩
  have hdig : c.isDigit = true := itoaGo_all_digit n c (by rw [hcr]; exact List.mem_cons_self c rest)
  rw [hcr]
  simp only [atoiGo, if_neg (isDigit_ne_minus hdig), if_neg (isDigit_ne_plus hdig)]
  have hall : (c :: rest).all Char.isDigit = true := by
    rw [← hcr]
    rw [List.all_eq_true]
    exact itoaGo_all_digit n
  have hval : natOfDigits (c :: rest) = n := by rw [← hcr]; exact natOfDigits_itoaGo n
  simp only [atoiCore, List.isEmpty_cons, Bool.false_eq_true, if_false, hall, if_true, hval,
    if_neg (Bool.false_ne_true), Bool.false_eq_true]
  rw [if_pos h]

theorem intItoa_natCast (n : Nat) : intItoa (n : Int) = itoaGo n := by
  simp [intItoa]

/-! ## Facts about the embedded scanner and write-back -/

theorem mem_of_getLast? {l : List Char} {a : Char} (h : l.getLast? = some a) : a ∈ l := by
  induction l with
  | nil => simp at h
  | cons x xs ih =>
    cases xs with
    | nil => simp at h; simp [h]
    | cons y ys =>
      rw [List.getLast?_cons_cons] at h
      exact List.mem_cons_of_mem x (ih h)

theorem dropCR_of_no_cr {l : List Char} (h : ∀ c ∈ l, c ≠ '\r') : dropCR l = l := by
  unfold dropCR
  rw [if_neg]
  intro hlast
  exact h '\r' (mem_of_getLast? hlast) rfl

theorem writeAllLines_cons (l : List Char) (ls : List (List Char)) :
    writeAllLines (l :: ls) = l ++ '\n' :: writeAllLines ls := rfl

theorem writeAllLines_append (a b : List (List Char)) :
    writeAllLines (a ++ b) = writeAllLines a ++ writeAllLines b := by
  induction a with
  | nil => simp [writeAllLines]
  | cons l ls ih => simp [writeAllLines_cons, ih]

theorem writeAllLines_eq_nil {ls : List (List Char)} (h : writeAllLines ls = []) :
    ls = [] := by
  cases ls with
  | nil => rfl
  | cons l rest => simp [writeAllLines_cons] at h

theorem splitLinesAux_line {l : List Char} (hl : '\n' ∉ l) :
    ∀ acc rest, splitLinesAux acc (l ++ '\n' :: rest)
      = dropCR (acc.reverse ++ l) :: (if rest.isEmpty then [] else splitLinesAux [] rest) := by
  induction l with
  | nil => intro acc rest; simp [splitLinesAux]
  | cons x l' ih =>
    intro acc rest
    have hx : ¬x = '\n' := fun e => hl (e ▸ List.mem_cons_self x l')
    have hl' : '\n' ∉ l' := fun hmem => hl (List.mem_cons_of_mem x hmem)
    have : (x :: l') ++ '\n' :: rest = x :: (l' ++ '\n' :: rest) := rfl
    rw [this]
    simp only [splitLinesAux, if_neg hx]
    rw [ih hl' (x :: acc) rest]
    simp

theorem splitLinesAux_last {l : List Char} (hl : '\n' ∉ l) :
    ∀ acc, splitLinesAux acc l = [dropCR (acc.reverse ++ l)] := by
  induction l with
  | nil => intro acc; simp [splitLinesAux]
  | cons x l' ih =>
    intro acc
    have hx : ¬x = '\n' := fun e => hl (e ▸ List.mem_cons_self x l')
    have hl' : '\n' ∉ l' := fun hmem => hl (List.mem_cons_of_mem x hmem)
    simp only [splitLinesAux, if_neg hx]
    rw [ih hl' (x :: acc)]
    simp

theorem splitLines_writeAllLines :
    ∀ ls : List (List Char), (∀ l ∈ ls, ∀ c ∈ l, c ≠ '\n' ∧ c ≠ '\r') →
      splitLinesGo (writeAllLines ls) = ls := by
  intro ls
  induction ls with
  | nil => intro _; simp [splitLinesGo, writeAllLines]
  | cons l rest ih =>
    intro h
    have hln : '\n' ∉ l := fun hmem => ((h l (List.mem_cons_self l rest)) '\n' hmem).1 rfl
    have hlr : ∀ c ∈ l, c ≠ '\r' := fun c hc => ((h l (List.mem_cons_self l rest)) c hc).2
    rw [writeAllLines_cons]
    have hne : (l ++ '\n' :: writeAllLines rest).isEmpty = false := by
      cases l <;> simp
    rw [splitLinesGo, hne]
    simp only [Bool.false_eq_true, if_false]
    rw [splitLinesAux_line hln [] (writeAllLines rest)]
    simp only [List.reverse_nil, List.nil_append]
    rw [dropCR_of_no_cr hlr]
    by_cases hw : (writeAllLines rest).isEmpty
    · have : writeAllLines rest = [] := by
        cases hwe : writeAllLines rest with
        | nil => rfl
        | cons a b => rw [hwe] at hw; simp at hw
      have : rest = [] := writeAllLines_eq_nil this
      subst this
      simp [hw]
    · rw [if_neg hw]
      have hrest : splitLinesGo (writeAllLines rest) = rest :=
        ih (fun l2 hl2 => h l2 (List.mem_cons_of_mem l hl2))
      rw [splitLinesGo, if_neg (by simpa using hw)] at hrest
      rw [hrest]

theorem mem_splitLinesAux :
    ∀ (cs acc : List Char), (∀ a ∈ acc, a ≠ '\n') →
      ∀ l ∈ splitLinesAux acc cs, ∀ c ∈ l, c ≠ '\n' ∧ (c ∈ acc ∨ c ∈ cs) := by
  intro cs
  induction cs with
  | nil =>
    intro acc hacc l hmem c hc
    simp [splitLinesAux] at hmem
    subst hmem
    have : c ∈ acc.reverse := by
      unfold dropCR at hc
      split at hc
      · exact List.dropLast_subset _ hc
      · exact hc
    rw [List.mem_reverse] at this
    exact ⟨hacc c this, Or.inl this⟩
  | cons x rest ih =>
    intro acc hacc l hmem c hc
    by_cases hx : x = '\n'
    · subst hx
      simp only [splitLinesAux, if_pos rfl] at hmem
      rcases List.mem_cons.mp hmem with hmem | hmem
      · subst hmem
        have : c ∈ acc.reverse := by
          unfold dropCR at hc
          split at hc
          · exact List.dropLast_subset _ hc
          · exact hc
        rw [List.mem_reverse] at this
        exact ⟨hacc c this, Or.inl this⟩
      · by_cases hr : rest.isEmpty
        · rw [if_pos hr] at hmem; simp at hmem
        · rw [if_neg hr] at hmem
          obtain ⟨h1, h2⟩ := ih [] (by simp) l hmem c hc
          refine ⟨h1, Or.inr ?_⟩
          rcases h2 with h2 | h2
          · simp at h2
          · exact List.mem_cons_of_mem _ h2
    · simp only [splitLinesAux, if_neg hx] at hmem
      have hacc' : ∀ a ∈ x :: acc, a ≠ '\n' := by
        intro a ha
        rcases List.mem_cons.mp ha with ha | ha
        · subst ha; exact hx
        · exact hacc a ha
      obtain ⟨h1, h2⟩ := ih (x :: acc) hacc' l hmem c hc
      refine ⟨h1, ?_⟩
      rcases h2 with h2 | h2
      · rcases List.mem_cons.mp h2 with h2 | h2
        · subst h2; exact Or.inr (List.mem_cons_self _ _)
        · exact Or.inl h2
      · exact Or.inr (List.mem_cons_of_mem x h2)

theorem mem_splitLinesGo {cs : List Char} :
    ∀ l ∈ splitLinesGo cs, ∀ c ∈ l, c ≠ '\n' ∧ c ∈ cs := by
  intro l hmem c hc
  unfold splitLinesGo at hmem
  split at hmem
  · simp at hmem
  · obtain ⟨h1, h2⟩ := mem_splitLinesAux cs [] (by simp) l hmem c hc
    refine ⟨h1, ?_⟩
    rcases h2 with h2 | h2
    · simp at h2
    · exact h2

theorem splitLinesAux_write_length :
    ∀ (cs acc : List Char), (∀ a ∈ acc, a ≠ '\r') → (∀ c ∈ cs, c ≠ '\r') →
      acc.length + cs.length ≤ (writeAllLines (splitLinesAux acc cs)).length := by
  intro cs
  induction cs with
  | nil =>
    intro acc hacc _
    have h1 : splitLinesAux acc [] = [dropCR acc.reverse] := rfl
    rw [h1, writeAllLines_cons]
    rw [dropCR_of_no_cr (fun c hc => hacc c (List.mem_reverse.mp hc))]
    simp [writeAllLines]
  | cons x rest ih =>
    intro acc hacc hcs
    have hxr : x ≠ '\r' := hcs x (List.mem_cons_self x rest)
    have hrest : ∀ c ∈ rest, c ≠ '\r' := fun c hc => hcs c (List.mem_cons_of_mem x hc)
    by_cases hx : x = '\n'
    · subst hx
      have h1 : splitLinesAux acc ('\n' :: rest)
          = dropCR acc.reverse :: (if rest.isEmpty then [] else splitLinesAux [] rest) := by
        simp [splitLinesAux]
      rw [h1, writeAllLines_cons,
        dropCR_of_no_cr (fun c hc => hacc c (List.mem_reverse.mp hc))]
      by_cases hr : rest.isEmpty
      · have hre : rest = [] := by
          cases rest with
          | nil => rfl
          | cons a b => simp at hr
        subst hre
        simp [writeAllLines]
      · rw [if_neg hr]
        have h2 := ih [] (by simp) hrest
        simp only [List.length_nil, Nat.zero_add] at h2
        simp only [List.length_append, List.length_cons, List.length_reverse]
        omega
    · have h1 : splitLinesAux acc (x :: rest) = splitLinesAux (x :: acc) rest := by
        simp [splitLinesAux, hx]
      rw [h1]
      have hacc' : ∀ a ∈ x :: acc, a ≠ '\r' := by
        intro a ha
        rcases List.mem_cons.mp ha with ha | ha
        · subst ha; exact hxr
        · exact hacc a ha
      have h2 := ih (x :: acc) hacc' hrest
      simp only [List.length_cons] at h2 ⊢
      omega

theorem content_le_writeAllLines_length {content : List Char}
    (h : ∀ c ∈ content, c ≠ '\r') :
    content.length ≤ (writeAllLines (splitLinesGo content)).length := by
  unfold splitLinesGo
  split
  · rename_i he
    have : content = [] := by
      cases hc : content with
      | nil => rfl
      | cons a b => rw [hc] at he; simp at he
    subst this; simp
  · have := splitLinesAux_write_length content [] (by simp) h
    simpa using this

/-! ## Facts about the embedded FindString and Replace -/

theorem takeWhile_eq_nil_of_head {p : Char → Bool} {l : List Char}
    (h : ∀ d, l.head? = some d → p d = false) : l.takeWhile p = [] := by
  cases l with
  | nil => rfl
  | cons x xs =>
    have hx := h x rfl
    simp [List.takeWhile_cons, hx]

theorem firstDigitRun_cons_pos {c : Char} {rest : List Char} (h : c.isDigit = true) :
    firstDigitRun (c :: rest) = c :: rest.takeWhile Char.isDigit := by
  rw [firstDigitRun, if_pos h]

theorem firstDigitRun_cons_neg {c : Char} {rest : List Char} (h : c.isDigit = false) :
    firstDigitRun (c :: rest) = firstDigitRun rest := by
  rw [firstDigitRun, if_neg (by simp [h])]

theorem firstDigitRun_decomp {cs : List Char} (h : firstDigitRun cs ≠ []) :
    ∃ pre post, cs = pre ++ firstDigitRun cs ++ post ∧
      (∀ c ∈ pre, c.isDigit = false) ∧
      (∀ d, post.head? = some d → d.isDigit = false) := by
  induction cs with
  | nil => exact absurd rfl h
  | cons c rest ih =>
    by_cases hd : c.isDigit = true
    · refine ⟨[], rest.dropWhile Char.isDigit, ?_, by simp, ?_⟩
      · rw [firstDigitRun_cons_pos hd]
        simp only [List.nil_append, List.cons_append]
        rw [List.takeWhile_append_dropWhile]
      · intro d hdp
        have h2 := List.head?_dropWhile_not Char.isDigit rest
        rw [hdp] at h2
        exact h2
    · have hd' : c.isDigit = false := Bool.eq_false_iff.mpr hd
      rw [firstDigitRun_cons_neg hd'] at h ⊢
      obtain ⟨pre, post, heq, hpre, hpost⟩ := ih h
      refine ⟨c :: pre, post, ?_, ?_, hpost⟩
      · rw [List.cons_append, List.cons_append]
        exact congrArg (List.cons c) heq
      · intro a ha
        rcases List.mem_cons.mp ha with ha | ha
        · subst ha; exact hd'
        · exact hpre a ha

theorem firstDigitRun_construct {pre r post : List Char}
    (hpre : ∀ c ∈ pre, c.isDigit = false) (hr : r ≠ [])
    (hrd : ∀ c ∈ r, c.isDigit = true)
    (hpost : ∀ d, post.head? = some d → d.isDigit = false) :
    firstDigitRun (pre ++ r ++ post) = r := by
  induction pre with
  | nil =>
    cases r with
    | nil => exact absurd rfl hr
    | cons d r' =>
      have hd : d.isDigit = true := hrd d (List.mem_cons_self d r')
      have hca : ([] : List Char) ++ (d :: r') ++ post = d :: (r' ++ post) := rfl
      rw [hca, firstDigitRun_cons_pos hd]
      congr 1
      rw [List.takeWhile_append_of_pos (fun a ha => hrd a (List.mem_cons_of_mem d ha))]
      rw [takeWhile_eq_nil_of_head hpost]
      simp
  | cons x pre' ih =>
    have hx : x.isDigit = false := hpre x (List.mem_cons_self x pre')
    have hca : (x :: pre') ++ r ++ post = x :: (pre' ++ r ++ post) := rfl
    rw [hca, firstDigitRun_cons_neg hx]
    exact ih (fun c hc => hpre c (List.mem_cons_of_mem x hc))

theorem isPrefixOf_append_self : ∀ xs ys : List Char, xs.isPrefixOf (xs ++ ys) = true := by
  intro xs ys
  induction xs with
  | nil => simp [List.isPrefixOf]
  | cons c xs ih => simp [List.isPrefixOf, ih]

theorem replaceFirst_cons_pos {c : Char} {rest pat rep : List Char}
    (h : pat.isPrefixOf (c :: rest) = true) :
    replaceFirst (c :: rest) pat rep = rep ++ (c :: rest).drop pat.length := by
  simp [replaceFirst, h]

theorem replaceFirst_cons_neg {c : Char} {rest pat rep : List Char}
    (h : ¬pat.isPrefixOf (c :: rest) = true) :
    replaceFirst (c :: rest) pat rep = c :: replaceFirst rest pat rep := by
  simp [replaceFirst, h]

theorem replaceFirst_decomp {pre pat post rep : List Char}
    (hpre : ∀ c ∈ pre, c.isDigit = false)
    {d : Char} (hd : pat.head? = some d) (hdd : d.isDigit = true) :
    replaceFirst (pre ++ (pat ++ post)) pat rep = pre ++ (rep ++ post) := by
  induction pre with
  | nil =>
    simp only [List.nil_append]
    cases pat with
    | nil => simp at hd
    | cons p pat' =>
      have hpfx : (p :: pat').isPrefixOf ((p :: pat') ++ post) = true :=
        isPrefixOf_append_self _ _
      have hcons : (p :: pat') ++ post = p :: (pat' ++ post) := rfl
      rw [hcons] at hpfx ⊢
      rw [replaceFirst_cons_pos hpfx]
      rw [← hcons, List.drop_left]
  | cons x pre' ih =>
    have hx : x.isDigit = false := hpre x (List.mem_cons_self x pre')
    have hne : ¬pat.isPrefixOf (x :: (pre' ++ (pat ++ post))) = true := by
      cases pat with
      | nil => simp at hd
      | cons p pat' =>
        have hpd : p = d := by simpa using hd
        subst hpd
        simp only [List.isPrefixOf, Bool.and_eq_true, beq_iff_eq]
        rintro ⟨h1, -⟩
        subst h1
        rw [hdd] at hx
        exact Bool.true_eq_false ▸ hx
    have hcons : (x :: pre') ++ (pat ++ post) = x :: (pre' ++ (pat ++ post)) := rfl
    rw [hcons, replaceFirst_cons_neg hne,
      ih (fun c hc => hpre c (List.mem_cons_of_mem x hc))]
    rfl

/-! ## Behaviour of the updateBuildNo scan loop -/

theorem processVCLine_unmatched {matcher : List Char → Bool} {render : Int → List Char}
    {l : List Char} (h : matcher l = false) :
    processVCLine matcher render l = .ok l := by
  rw [processVCLine, if_neg (by simp [h])]

theorem processVCLine_matched {matcher : List Char → Bool} {render : Int → List Char}
    {line run : List Char} {v : Int}
    (hm : matcher line = true) (hrun : firstDigitRun line = run)
    (hok : atoiGo run = ⟨v, true⟩) :
    processVCLine matcher render line
      = .ok (replaceFirst line run (intItoa (atoiGo (render v)).val)) := by
  simp [processVCLine, hm, hrun, hok]

theorem updateBuildNoLines_unmatched {matcher : List Char → Bool} {render : Int → List Char} :
    ∀ ls : List (List Char), (∀ l ∈ ls, matcher l = false) →
      updateBuildNoLines matcher render ls = .ok (ls, false) := by
  intro ls
  induction ls with
  | nil => intro _; rfl
  | cons l rest ih =>
    intro h
    have hl : matcher l = false := h l (List.mem_cons_self l rest)
    simp only [updateBuildNoLines]
    rw [processVCLine_unmatched hl, ih (fun x hx => h x (List.mem_cons_of_mem l hx))]
    simp [hl]

theorem updateBuildNoLines_single {matcher : List Char → Bool} {render : Int → List Char} :
    ∀ (pre : List (List Char)) (line : List Char) (post : List (List Char))
      (run : List Char) (v : Int),
      (∀ l ∈ pre, matcher l = false) → (∀ l ∈ post, matcher l = false) →
      matcher line = true → firstDigitRun line = run → atoiGo run = ⟨v, true⟩ →
      updateBuildNoLines matcher render (pre ++ line :: post)
        = .ok (pre ++ replaceFirst line run (intItoa (atoiGo (render v)).val) :: post, true) := by
  intro pre
  induction pre with
  | nil =>
    intro line post run v _ hpost hm hrun hok
    simp only [List.nil_append, updateBuildNoLines]
    rw [processVCLine_matched hm hrun hok,
      updateBuildNoLines_unmatched post hpost]
    simp [hm]
  | cons p pre' ih =>
    intro line post run v hpre hpost hm hrun hok
    have hp : matcher p = false := hpre p (List.mem_cons_self _ _)
    simp only [List.cons_append, updateBuildNoLines, List.append_eq]
    rw [processVCLine_unmatched hp,
      ih line post run v (fun l hl => hpre l (List.mem_cons_of_mem p hl)) hpost hm hrun hok]
    simp [hp]

theorem updateBuildNo_single_match {matcher : List Char → Bool} {render : Int → List Char}
    {content : List Char} {pre : List (List Char)} {line : List Char}
    {post : List (List Char)} {run : List Char} {v : Int}
    (hsplit : splitLinesGo content = pre ++ line :: post)
    (hpre : ∀ l ∈ pre, matcher l = false) (hpost : ∀ l ∈ post, matcher l = false)
    (hline : matcher line = true) (hrun : firstDigitRun line = run)
    (hok : atoiGo run = ⟨v, true⟩) :
    updateBuildNoFile matcher render content
      = .ok (overwriteNoTrunc content
          (writeAllLines
            (pre ++ replaceFirst line run (intItoa (atoiGo (render v)).val) :: post))) := by
  unfold updateBuildNoFile
  rw [hsplit, updateBuildNoLines_single pre line post run v hpre hpost hline hrun hok]
  simp

/-! ## Behaviour of the updateTagFile scan loop and the tag-collection loop -/

/-- Per-line result of the Tag File Semver Mutator, in closed form: a
qualifying line is replaced whole by the rendered template, any other line
is kept. -/
def tagMutStep (render : Semver → List Char) (l : List Char) : List Char :=
  if qualifiesTagLine l then render (parsedSemver l) else l

theorem processTagLine_eq {render : Semver → List Char} {l : List Char}
    (h : qualifiesTagLine l = true → revParses l = true) :
    processTagLine render l = .ok (tagMutStep render l, qualifiesTagLine l) := by
  unfold processTagLine tagMutStep
  by_cases hq : qualifiesTagLine l = true
  · rw [if_pos hq, if_pos hq, if_pos (h hq), hq]
  · have hq' : qualifiesTagLine l = false := Bool.eq_false_iff.mpr hq
    rw [if_neg hq, if_neg hq, hq']

theorem updateTagFileLines_ok {render : Semver → List Char} :
    ∀ ls : List (List Char), (∀ l ∈ ls, qualifiesTagLine l = true → revParses l = true) →
      updateTagFileLines render ls
        = .ok (ls.map (tagMutStep render), ls.any qualifiesTagLine) := by
  intro ls
  induction ls with
  | nil => intro _; rfl
  | cons l rest ih =>
    intro h
    simp only [updateTagFileLines]
    rw [processTagLine_eq (h l (List.mem_cons_self l rest)),
      ih (fun x hx => h x (List.mem_cons_of_mem l hx))]
    simp

theorem updateTagFile_all_parse {render : Semver → List Char} {content : List Char}
    {ls : List (List Char)}
    (hsplit : splitLinesGo content = ls)
    (hparse : ∀ l ∈ ls, qualifiesTagLine l = true → revParses l = true)
    (hsome : ls.any qualifiesTagLine = true) :
    updateTagFileFile render content = .ok (writeAllLines (ls.map (tagMutStep render))) := by
  unfold updateTagFileFile
  rw [hsplit, updateTagFileLines_ok ls hparse]
  simp [hsome]

theorem dropWhile_eq_nil_of_all {p : Char → Bool} :
    ∀ l : List Char, (∀ c ∈ l, p c = true) → l.dropWhile p = []
  | [], _ => rfl
  | c :: rest, h => by
    rw [List.dropWhile_cons, if_pos (h c (List.mem_cons_self c rest))]
    exact dropWhile_eq_nil_of_all rest (fun x hx => h x (List.mem_cons_of_mem c hx))

theorem trimGo_of_all_space {raw : List Char} (h : ∀ c ∈ raw, isSpaceGo c = true) :
    trimGo raw = [] := by
  unfold trimGo
  rw [dropWhile_eq_nil_of_all raw h]
  rfl

theorem tagsLoop_eq_filter :
    ∀ ls : List (List Char),
      tagsLoop ls
        = (ls.map trimGo).filter (fun l => !startsWithHash l && decide (l ≠ [])) := by
  intro ls
  induction ls with
  | nil => rfl
  | cons raw rest ih =>
    by_cases hc : (!startsWithHash (trimGo raw) && decide (trimGo raw ≠ [])) = true
    · simp only [tagsLoop, List.map_cons, List.filter_cons, hc, if_true, ih]
    · have hc' : (!startsWithHash (trimGo raw) && decide (trimGo raw ≠ [])) = false :=
        Bool.eq_false_iff.mpr hc
      simp only [tagsLoop, List.map_cons, List.filter_cons, hc', if_false, ih,
        Bool.false_eq_true]

theorem isDigit_ne_nl {c : Char} (h : c.isDigit = true) : c ≠ '\n' := by
  intro e; subst e; exact absurd h (by decide)

theorem isDigit_ne_cr {c : Char} (h : c.isDigit = true) : c ≠ '\r' := by
  intro e; subst e; exact absurd h (by decide)

/-- C4: for a file with exactly one line matching the configured version
regex, whose first digit run is the decimal representation of `V`, mutation
with the `add . 1` template succeeds and rewrites the file so that this
line's first digit run is the decimal representation of `V + 1` while every
other line is byte-identical (LF line endings; `V + 1` within Go's `int`
range).  In particular no stale bytes remain, since the written content is
at least as long as the original. -/
theorem C4_version_code_increment {matcher : List Char → Bool}
    {content : List Char} {pre : List (List Char)} {line : List Char}
    {post : List (List Char)} {V : Nat}
    (hcr : ∀ c ∈ content, c ≠ '\r')
    (hsplit : splitLinesGo content = pre ++ line :: post)
    (hpre : ∀ l ∈ pre, matcher l = false) (hpost : ∀ l ∈ post, matcher l = false)
    (hline : matcher line = true)
    (hrun : firstDigitRun line = itoaGo V)
    (hmax : V + 1 ≤ 2 ^ 63 - 1) :
    updateBuildNoFile matcher renderAdd1 content
      = .ok (writeAllLines (pre ++ replaceFirst line (itoaGo V) (itoaGo (V + 1)) :: post))
    ∧ splitLinesGo (writeAllLines (pre ++ replaceFirst line (itoaGo V) (itoaGo (V + 1)) :: post))
      = pre ++ replaceFirst line (itoaGo V) (itoaGo (V + 1)) :: post
    ∧ firstDigitRun (replaceFirst line (itoaGo V) (itoaGo (V + 1))) = itoaGo (V + 1) := by
  have hVmax : V ≤ 2 ^ 63 - 1 := by omega
  have hatoiV : atoiGo (itoaGo V) = ⟨(V : Int), true⟩ := atoiGo_itoaGo hVmax
  have hcast : ((V : Int)) + 1 = (((V + 1 : Nat)) : Int) := by push_cast; ring
  have hrender : renderAdd1 ((V : Int)) = itoaGo (V + 1) := by
    unfold renderAdd1
    rw [hcast, intItoa_natCast]
  have hatoiV1 : atoiGo (itoaGo (V + 1)) = ⟨((V + 1 : Nat) : Int), true⟩ := atoiGo_itoaGo hmax
  have hrep : intItoa (atoiGo (renderAdd1 ((V : Int)))).val = itoaGo (V + 1) := by
    rw [hrender, hatoiV1]
    exact intItoa_natCast (V + 1)
  have hmain := @updateBuildNo_single_match matcher renderAdd1 content pre line post
    (itoaGo V) ((V : Int)) hsplit hpre hpost hline hrun hatoiV
  rw [hrep] at hmain
  have hrunne : firstDigitRun line ≠ [] := by
    rw [hrun]; exact itoaGo_ne_nil V
  obtain ⟨p2, q2, hline_eq, hp2, hq2⟩ := firstDigitRun_decomp hrunne
  rw [hrun] at hline_eq
  obtain ⟨d0, rest0, hd0⟩ : ∃ d rest, itoaGo V = d :: rest := by
    cases h0 : itoaGo V with
    | nil => exact absurd h0 (itoaGo_ne_nil V)
    | cons d rest => exact ⟨d, rest, rfl⟩
  have hd0dig : d0.isDigit = true :=
    itoaGo_all_digit V d0 (by rw [hd0]; exact List.mem_cons_self _ _)
  have hd0head : (itoaGo V).head? = some d0 := by rw [hd0]; rfl
  have hassoc : line = p2 ++ (itoaGo V ++ q2) := by
    rw [hline_eq, List.append_assoc]
  have hrf : replaceFirst line (itoaGo V) (itoaGo (V + 1)) = p2 ++ (itoaGo (V + 1) ++ q2) := by
    conv_lhs => rw [hassoc]
    exact replaceFirst_decomp hp2 hd0head hd0dig
  have hc3 : firstDigitRun (replaceFirst line (itoaGo V) (itoaGo (V + 1))) = itoaGo (V + 1) := by
    rw [hrf, ← List.append_assoc]
    exact firstDigitRun_construct hp2 (itoaGo_ne_nil _) (itoaGo_all_digit _) hq2
  have hlen_run : (itoaGo V).length ≤ (itoaGo (V + 1)).length :=
    itoaGo_len_mono (by omega)
  have hlen_line : line.length ≤ (replaceFirst line (itoaGo V) (itoaGo (V + 1))).length := by
    rw [hrf]
    conv_lhs => rw [hassoc]
    simp only [List.length_append]
    omega
  have hmemline : line ∈ splitLinesGo content := by
    rw [hsplit]
    exact List.mem_append_right _ (List.mem_cons_self _ _)
  have hwlen : (writeAllLines (pre ++ line :: post)).length
      ≤ (writeAllLines (pre ++ replaceFirst line (itoaGo V) (itoaGo (V + 1)) :: post)).length := by
    rw [writeAllLines_append, writeAllLines_append, writeAllLines_cons, writeAllLines_cons]
    simp only [List.length_append, List.length_cons]
    omega
  have hcontentlen : content.length
      ≤ (writeAllLines (pre ++ replaceFirst line (itoaGo V) (itoaGo (V + 1)) :: post)).length := by
    have h1 := content_le_writeAllLines_length hcr
    rw [hsplit] at h1
    omega
  have hover : overwriteNoTrunc content
      (writeAllLines (pre ++ replaceFirst line (itoaGo V) (itoaGo (V + 1)) :: post))
      = writeAllLines (pre ++ replaceFirst line (itoaGo V) (itoaGo (V + 1)) :: post) := by
    unfold overwriteNoTrunc
    rw [List.drop_of_length_le hcontentlen]
    simp
  have hchars : ∀ l ∈ pre ++ replaceFirst line (itoaGo V) (itoaGo (V + 1)) :: post,
      ∀ c ∈ l, c ≠ '\n' ∧ c ≠ '\r' := by
    intro l hl c hc
    have fromContent : ∀ l2 ∈ splitLinesGo content, ∀ c2 ∈ l2, c2 ≠ '\n' ∧ c2 ≠ '\r' := by
      intro l2 hl2 c2 hc2
      obtain ⟨h1, h2⟩ := mem_splitLinesGo l2 hl2 c2 hc2
      exact ⟨h1, hcr c2 h2⟩
    rcases List.mem_append.mp hl with hl | hl
    · exact fromContent l (by rw [hsplit]; exact List.mem_append_left _ hl) c hc
    · rcases List.mem_cons.mp hl with hl | hl
      · subst hl
        rw [hrf] at hc
        have hcline : c ∈ line → c ≠ '\n' ∧ c ≠ '\r' := fun hcl =>
          fromContent line hmemline c hcl
        rcases List.mem_append.mp hc with hc | hc
        · exact hcline (by rw [hassoc]; exact List.mem_append_left _ hc)
        · rcases List.mem_append.mp hc with hc | hc
          · have hd := itoaGo_all_digit (V + 1) c hc
            exact ⟨isDigit_ne_nl hd, isDigit_ne_cr hd⟩
          · exact hcline (by
              rw [hassoc]
              exact List.mem_append_right _ (List.mem_append_right _ hc))
      · exact fromContent l
          (by rw [hsplit]; exact List.mem_append_right _ (List.mem_cons_of_mem _ hl)) c hc
  have hc2 : splitLinesGo
        (writeAllLines (pre ++ replaceFirst line (itoaGo V) (itoaGo (V + 1)) :: post))
      = pre ++ replaceFirst line (itoaGo V) (itoaGo (V + 1)) :: post :=
    splitLines_writeAllLines _ hchars
  exact ⟨by rw [hmain, hover], hc2, hc3⟩

/-! ## Claim theorems -/

/-- Witness for C4 at the spec's end-to-end example: `"versionCode 41\n"`
with regex `versionCode \d+` and template `add . 1` becomes
`"versionCode 42\n"`. -/
theorem C4_version_code_increment_witness :
    updateBuildNoFile matcherVC renderAdd1 (strL "versionCode 41\n")
      = .ok (strL "versionCode 42\n") := by
  have h := @C4_version_code_increment matcherVC (strL "versionCode 41\n") []
    (strL "versionCode 41") [] 41 (by decide) (by decide) (by decide) (by decide)
    (by decide) (by decide) (by decide)
  rw [h.1]
  decide

/-- C6: for a file with zero lines matching the version regex, the Version
Code Mutator fails with its no-match error (`fail("failed")`, fatal) and the
file content is left exactly as it was — the failure happens before any
write or truncate. -/
theorem C6_no_match_fatal_untouched {matcher : List Char → Bool}
    {render : Int → List Char} {content : List Char}
    (hall : ∀ l ∈ splitLinesGo content, matcher l = false) :
    updateBuildNoFile matcher render content = .error .failNoMatch
    ∧ updateBuildNoFinalContent matcher render content = content := by
  have h1 : updateBuildNoFile matcher render content = .error .failNoMatch := by
    unfold updateBuildNoFile
    rw [updateBuildNoLines_unmatched _ hall]
    simp
  exact ⟨h1, by unfold updateBuildNoFinalContent; rw [h1]⟩

/-- Witness for C6 on a file without any `versionCode` line. -/
theorem C6_no_match_fatal_untouched_witness :
    updateBuildNoFile matcherVC renderAdd1 (strL "hello world\n") = .error .failNoMatch
    ∧ updateBuildNoFinalContent matcherVC renderAdd1 (strL "hello world\n")
      = strL "hello world\n" :=
  C6_no_match_fatal_untouched (by decide)

/-- Counterexample to C5: on `"versionCode 0041\n"` (digit run with leading
zeros, so the rewritten content is shorter) the mutator succeeds but leaves
the residue `"1\n"` of the prior content in the file; the content is not
exactly the processed lines. -/
theorem C5_counterexample :
    updateBuildNoFile matcherVC renderAdd1 (strL "versionCode 0041\n")
      = .ok (strL "versionCode 42\n1\n")
    ∧ strL "versionCode 42\n1\n" ≠ writeAllLines [strL "versionCode 42"] := by
  decide

/-- C5 amended: after a successful run the file holds the processed lines in
order, each newline-terminated, written from offset 0 over the old content
without truncation — followed by whatever bytes of the old content lie
beyond the written length. -/
theorem C5_amended_overwrite_residue {matcher : List Char → Bool}
    {render : Int → List Char} {content : List Char} {pre : List (List Char)}
    {line : List Char} {post : List (List Char)} {run : List Char} {v : Int}
    (hsplit : splitLinesGo content = pre ++ line :: post)
    (hpre : ∀ l ∈ pre, matcher l = false) (hpost : ∀ l ∈ post, matcher l = false)
    (hline : matcher line = true) (hrun : firstDigitRun line = run)
    (hok : atoiGo run = ⟨v, true⟩) :
    updateBuildNoFile matcher render content
      = .ok (writeAllLines
            (pre ++ replaceFirst line run (intItoa (atoiGo (render v)).val) :: post)
          ++ content.drop (writeAllLines
            (pre ++ replaceFirst line run (intItoa (atoiGo (render v)).val) :: post)).length) :=
  @updateBuildNo_single_match matcher render content pre line post run v
    hsplit hpre hpost hline hrun hok

/-- Witness for the amended C5: `"versionCode 007\n"` shrinks to
`"versionCode 8"` and the residue `"7\n"` of the old content survives. -/
theorem C5_amended_overwrite_residue_witness :
    updateBuildNoFile matcherVC renderAdd1 (strL "versionCode 007\n")
      = .ok (strL "versionCode 8\n7\n") := by
  have h := @C5_amended_overwrite_residue matcherVC renderAdd1 (strL "versionCode 007\n")
    [] (strL "versionCode 007") [] (strL "007") 7 (by decide) (by decide) (by decide)
    (by decide) (by decide) (by decide)
  rw [h]
  decide

/-- Execution of a version-code template whose rendered output (here
`"<code>.5"`) does not parse back as an integer. -/
def renderDotFive (v : Int) : List Char := intItoa v ++ strL ".5"

/-- Counterexample to C8: when the rendered template output does not parse
as an integer the run does not fail — the discarded `Atoi` error leaves
`verCodeNew = 0` and `0` is written into the line. -/
theorem C8_counterexample :
    updateBuildNoFile matcherVC renderDotFive (strL "versionCode 4\n")
      = .ok (strL "versionCode 0\n") := by
  decide

/-- C8 amended: when the rendered output fails to parse (Go's `Atoi`
returning `0` with a syntax error), the error is ignored and the digit run
is replaced by `0`; the run succeeds. -/
theorem C8_amended_zero_written {matcher : List Char → Bool}
    {render : Int → List Char} {content : List Char} {pre : List (List Char)}
    {line : List Char} {post : List (List Char)} {run : List Char} {v : Int}
    (hsplit : splitLinesGo content = pre ++ line :: post)
    (hpre : ∀ l ∈ pre, matcher l = false) (hpost : ∀ l ∈ post, matcher l = false)
    (hline : matcher line = true) (hrun : firstDigitRun line = run)
    (hok : atoiGo run = ⟨v, true⟩)
    (hfail : atoiGo (render v) = ⟨0, false⟩) :
    updateBuildNoFile matcher render content
      = .ok (overwriteNoTrunc content
          (writeAllLines (pre ++ replaceFirst line run (strL "0") :: post))) := by
  have h := @updateBuildNo_single_match matcher render content pre line post run v
    hsplit hpre hpost hline hrun hok
  rw [hfail] at h
  have h0 : intItoa (AtoiResult.mk 0 false).val = strL "0" := by decide
  rw [h0] at h
  exact h

/-- Witness for the amended C8. -/
theorem C8_amended_zero_written_witness :
    updateBuildNoFile matcherVC renderDotFive (strL "versionCode 7\n")
      = .ok (strL "versionCode 0\n") := by
  have h := @C8_amended_zero_written matcherVC renderDotFive (strL "versionCode 7\n")
    [] (strL "versionCode 7") [] (strL "7") 7 (by decide) (by decide) (by decide)
    (by decide) (by decide) (by decide) (by decide)
  rw [h]
  decide

/-- C7 refutation input: the Major group `99999999999999999999` overflows
Go's `int`, so its `Atoi` reports an error, but only the error of the Rev
parse is ever checked (`err` is reassigned); the run succeeds and rewrites
the file with the clamped Major value. -/
theorem C7_err_shadowing_overflow_major :
    (atoiGo (strL "99999999999999999999")).ok = false
    ∧ updateTagFileFile renderSemBump (strL "99999999999999999999.1.2\n")
      = .ok (strL "9223372036854775807.1.3\n") := by
  decide

/-- Counterexample to C1: with tag file `"1.2.3\n4.5.6\n"` the second
qualifying line is rewritten as well (to `4.5.7`), and with the spec's own
end-to-end tag file the non-semver base-name line `beta-candidate` makes
the whole mutator exit fatally instead of writing the line back unchanged
(the file stays untouched only because the failure precedes the write). -/
theorem C1_counterexample :
    updateTagFileFile renderSemBump (strL "1.2.3\n4.5.6\n") = .ok (strL "1.2.4\n4.5.7\n")
    ∧ updateTagFileFile renderSemBump (strL "# header\n1.2.3\nbeta-candidate\n")
      = .error .formatFail
    ∧ updateTagFileFinalContent renderSemBump (strL "# header\n1.2.3\nbeta-candidate\n")
      = strL "# header\n1.2.3\nbeta-candidate\n" := by
  decide

/-- C1 amended: the Tag File Semver Mutator processes every non-blank,
non-`#` line: each such line is replaced whole by the template rendered
against its parsed semver groups, comment/blank lines are preserved
verbatim, and the file is rewritten truncated to exactly these lines —
provided every qualifying line's Rev group parses (otherwise the run is
fatal). -/
theorem C1_amended_every_qualifying_line_mutated {render : Semver → List Char}
    {content : List Char} {ls : List (List Char)}
    (hsplit : splitLinesGo content = ls)
    (hparse : ∀ l ∈ ls, qualifiesTagLine l = true → revParses l = true)
    (hsome : ls.any qualifiesTagLine = true) :
    updateTagFileFile render content
      = .ok (writeAllLines
          (ls.map (fun l => if qualifiesTagLine l then render (parsedSemver l) else l))) :=
  updateTagFile_all_parse hsplit hparse hsome

/-- Witness for the amended C1: a comment line is preserved and the semver
line is replaced by the rendered template. -/
theorem C1_amended_witness :
    updateTagFileFile renderSemBump (strL "# header\n1.2.3\n")
      = .ok (strL "# header\n1.2.4\n") := by
  have h := @C1_amended_every_qualifying_line_mutated renderSemBump
    (strL "# header\n1.2.3\n") (splitLinesGo (strL "# header\n1.2.3\n")) rfl
    (by decide) (by decide)
  rw [h]
  decide

/-- Environment in which only the suffixed tag name exists locally after
creation (creating any other name fails) and every push succeeds. -/
def envSuffixOnly : GitEnv :=
  ⟨fun n => if n = strL "beta-candidate-rc1" then none
            else some (.newErr (strL "tag name was not created locally")),
   fun _ => none, fun _ => none⟩

/-- C2 refutation: with tag file line `beta-candidate` and suffix `-rc1`,
the locally created tag is `beta-candidate-rc1` (creation of any other name
would abort this run), yet the name pushed to the remote is the bare
`beta-candidate` — not the suffixed name that was created. -/
theorem C2_pushes_base_name_not_suffixed :
    processTagFile envSuffixOnly (strL "-rc1") (strL "beta-candidate\n")
      = .ok [strL "beta-candidate"]
    ∧ [strL "beta-candidate"] ≠ [strL "beta-candidate-rc1"] := by
  decide

/-- Environment in which every local tag creation reports the go-git
`ErrTagExists` sentinel and every push succeeds. -/
def envTagExists : GitEnv :=
  ⟨fun _ => some .errTagExists, fun _ => none, fun _ => none⟩

/-- C3 refutation: `gitTag` wraps the `git.ErrTagExists` sentinel in a fresh
`errors.New` value, so the `err == git.ErrTagExists` test in
`processTagFile` can never succeed: an already-existing tag aborts the
whole run at the first tag instead of being skipped with a warning. -/
theorem C3_tag_exists_aborts_run :
    gitTag envTagExists (strL "tagA-rc1")
      = some (.newErr (strL "error creating tag: tag already exists\n"))
    ∧ processTagFile envTagExists (strL "-rc1") (strL "tagA\ntagB\n")
      = .error (.newErr (strL "error creating tag: tag already exists\n")) := by
  decide

/-- C9: for both the tag push and the branch push, a push whose underlying
result is the `git.NoErrAlreadyUpToDate` sentinel returns without error. -/
theorem C9_already_up_to_date_is_success (env : GitEnv) (name : List Char) :
    (env.pushTagRes name = some .noErrAlreadyUpToDate → gitPushTag env name = none)
    ∧ (env.pushBranchRes name = some .noErrAlreadyUpToDate → gitPushBranch env name = none) := by
  constructor
  · intro h; unfold gitPushTag; rw [h]; simp
  · intro h; unfold gitPushBranch; rw [h]; simp

/-- Environment whose pushes all report "already up to date". -/
def envUpToDate : GitEnv :=
  ⟨fun _ => none, fun _ => some .noErrAlreadyUpToDate, fun _ => some .noErrAlreadyUpToDate⟩

/-- Witness for C9. -/
theorem C9_already_up_to_date_is_success_witness :
    gitPushTag envUpToDate (strL "beta-candidate") = none
    ∧ gitPushBranch envUpToDate (strL "master") = none :=
  ⟨(C9_already_up_to_date_is_success envUpToDate (strL "beta-candidate")).1 rfl,
   (C9_already_up_to_date_is_success envUpToDate (strL "master")).2 rfl⟩

/-- C10: the Tag Processor's collection loop equals, for every file, the
whitespace-trim of each scanned line followed by the comment/blank filter —
so the collected base names are the trimmed line contents, and a line of
only whitespace trims to empty and is skipped like a blank line. -/
theorem C10_tags_are_trimmed_lines (content : List Char) :
    tagsFromContent content
      = ((splitLinesGo content).map trimGo).filter
          (fun l => !startsWithHash l && decide (l ≠ []))
    ∧ (∀ raw : List Char, (∀ c ∈ raw, isSpaceGo c = true) → trimGo raw = []) :=
  ⟨tagsLoop_eq_filter (splitLinesGo content), fun _ h => trimGo_of_all_space h⟩

/-- Witness for C10: surrounding blanks are trimmed from data lines, a
whitespace-only line and a comment are dropped. -/
theorem C10_tags_are_trimmed_lines_witness :
    tagsFromContent (strL " beta \n# note\n \t \nrc\n") = [strL "beta", strL "rc"]
    ∧ trimGo (strL " \t ") = [] := by
  have h := C10_tags_are_trimmed_lines (strL " beta \n# note\n \t \nrc\n")
  exact ⟨h.1.trans (by decide), h.2 (strL " \t ") (by decide)⟩
